import Mathlib

/-!
# Mood tracker core: shallow embedding and verification

Shallow embedding of `src/mood_tracker.py` (classes `MoodEntry` and
`MoodTracker`) and proofs about its analytics, import/export, querying and
error handling.

Modelling conventions:
* An instant (`datetime`) is a natural number of microseconds since the epoch
  (1970-01-01T00:00, a Thursday).  `datetime.now()` becomes an explicit `now`
  parameter threaded into the operations that read the clock.
* `datetime.isoformat` / `datetime.fromisoformat` are modelled by an injective
  decimal rendering of the instant and its parser; what matters for the code
  is that the text form is round-trippable, which is proved below.
* Python numbers (`int` mood/stress/energy scores, `float` sleep hours and
  averages) are modelled by `ℚ`, making the arithmetic of means exact.
* JSON values are modelled structurally by the inductive `Json`;
  `json.dumps`/`json.loads` are the identity on that structure, so an import
  text is an `Option Json` (`none` = text that does not parse).
* Python's dynamic field accesses are narrowed to the record schema: a field
  access that would raise (`KeyError`, `TypeError`, `ValueError`) is an
  `Option.none`, and values are required to have the schema's type.
-/

namespace MoodTrackerPy

/-- Microseconds in a day (`timedelta(days=1)`). -/
def usPerDay : Nat := 86400000000

/-- `datetime.date()` of an instant, as a day number (the calendar date in an
injective numeric form). -/
def dateOf (t : Nat) : Nat := t / usPerDay

/-- `datetime.weekday()`: Monday = 0 … Sunday = 6.  The epoch day was a
Thursday (weekday 3). -/
def pyWeekday (t : Nat) : Nat := (t / usPerDay + 3) % 7

/-! ## Decimal rendering of instants (`isoformat` / `fromisoformat` model) -/

/-- A decimal digit as a character. -/
def digitCh (n : Nat) : Char := Char.ofNat (48 + n)

/-- Big-endian decimal digits of `n`, with `fuel ≥ n` ensuring termination
structurally. -/
def natDigits : Nat → Nat → List Char
  | 0, _ => []
  | fuel + 1, n => if n = 0 then [] else natDigits fuel (n / 10) ++ [digitCh (n % 10)]

/-- `isoformat`: the sortable round-trippable text form of an instant,
modelled as its decimal rendering. -/
def isoformat (t : Nat) : String := if t = 0 then "0" else String.mk (natDigits t t)

/-- Parse one decimal digit character. -/
def digitVal? (c : Char) : Option Nat :=
  if 48 ≤ c.toNat ∧ c.toNat ≤ 57 then some (c.toNat - 48) else none

/-- Accumulate decimal digits left to right; fails on a non-digit. -/
def decDecode : Nat → List Char → Option Nat
  | acc, [] => some acc
  | acc, c :: cs =>
    match digitVal? c with
    | none => none
    | some d => decDecode (acc * 10 + d) cs

/-- `fromisoformat`: parse the text form of an instant; fails (raises in
Python) on text that is not a rendering of an instant. -/
def fromisoformat (s : String) : Option Nat :=
  match s.data with
  | [] => none
  | cs => decDecode 0 cs

/-! ## JSON model -/

/-- Structural model of a parsed JSON value. -/
inductive Json where
  | null : Json
  | bool : Bool → Json
  | num : ℚ → Json
  | str : String → Json
  | arr : List Json → Json
  | obj : List (String × Json) → Json

/-- `data[key]` on a JSON object's key/value list: first binding wins,
`none` when the key is absent (Python raises `KeyError`). -/
def jlookup (kvs : List (String × Json)) (k : String) : Option Json :=
  match kvs with
  | [] => none
  | (k', v) :: rest => if k' = k then some v else jlookup rest k

/-- `data.get(key, default)`. -/
def jgetD (kvs : List (String × Json)) (k : String) (d : Json) : Json :=
  (jlookup kvs k).getD d

/-- Narrow a JSON value to a number. -/
def asNum : Json → Option ℚ
  | .num q => some q
  | _ => none

/-- Narrow a JSON value to a string. -/
def asStr : Json → Option String
  | .str s => some s
  | _ => none

/-- Narrow every element of a list to a string, failing on the first
non-string. -/
def strList : List Json → Option (List String)
  | [] => some []
  | j :: rest => do
    let s ← asStr j
    let ss ← strList rest
    some (s :: ss)

/-- Narrow a JSON value to a list of strings. -/
def asStrList : Json → Option (List String)
  | .arr xs => strList xs
  | _ => none

/-! ## `MoodEntry` -/

/-- One mood entry (class `MoodEntry`): timestamp plus the caller-supplied
fields. -/
structure MoodEntry where
  timestamp : Nat
  mood_score : ℚ
  notes : String
  stress_level : ℚ
  energy_level : ℚ
  sleep_hours : ℚ
  tags : List String
  deriving DecidableEq

/-- `MoodEntry.__init__`: `timestamp = datetime.now()` (the explicit `now`),
the other fields stored as given; note that no field is validated.  Python's
defaults are `notes=""`, `stress_level=5`, `energy_level=5`,
`sleep_hours=8.0`, `tags=[]`; callers of the model pass them explicitly. -/
def MoodEntry.init (now : Nat) (mood_score : ℚ) (notes : String)
    (stress_level energy_level sleep_hours : ℚ) (tags : List String) :
    MoodEntry :=
  { timestamp := now, mood_score := mood_score, notes := notes,
    stress_level := stress_level, energy_level := energy_level,
    sleep_hours := sleep_hours, tags := tags }

/-- `MoodEntry.to_dict`. -/
def MoodEntry.to_dict (e : MoodEntry) : Json :=
  .obj [("timestamp", .str (isoformat e.timestamp)),
        ("mood_score", .num e.mood_score),
        ("notes", .str e.notes),
        ("stress_level", .num e.stress_level),
        ("energy_level", .num e.energy_level),
        ("sleep_hours", .num e.sleep_hours),
        ("tags", .arr (e.tags.map .str))]

/-- `MoodEntry.from_dict`: builds the entry from the dictionary (defaults for
every field but `mood_score`), then overwrites the timestamp only when a
`timestamp` key is present; otherwise the `datetime.now()` set by the
constructor (the `now` argument) is kept.  `none` models the Python call
raising (missing `mood_score`, non-object input, ill-typed field,
unparsable timestamp text). -/
def MoodEntry.from_dict (now : Nat) : Json → Option MoodEntry
  | .obj kvs => do
    let ms ← (jlookup kvs "mood_score").bind asNum
    let notes ← asStr (jgetD kvs "notes" (.str ""))
    let stress ← asNum (jgetD kvs "stress_level" (.num 5))
    let energy ← asNum (jgetD kvs "energy_level" (.num 5))
    let sleep ← asNum (jgetD kvs "sleep_hours" (.num 8))
    let tags ← asStrList (jgetD kvs "tags" (.arr []))
    let base := MoodEntry.init now ms notes stress energy sleep tags
    match jlookup kvs "timestamp" with
    | none => some base
    | some tv => do
      let s ← asStr tv
      let t ← fromisoformat s
      some { base with timestamp := t }
  | _ => none

/-! ## `MoodTracker` -/

/-- The optional persistence gateway (`sheets_api`): its `add_mood_entry` is a
call that either returns a boolean or raises (`Except.error`). -/
def Gateway : Type := MoodEntry → Except String Bool

/-- `MoodTracker.add_entry`: append to `self.entries`, then notify the gateway
when one is configured; a raise from the gateway is caught and turned into a
`false` return, with the local append left in place.  The model is a total
function, which is the `never raises` part of the contract. -/
def add_entry (gw : Option Gateway) (entries : List MoodEntry)
    (e : MoodEntry) : Bool × List MoodEntry :=
  let appended := entries ++ [e]
  match gw with
  | none => (true, appended)
  | some g =>
    match g e with
    | .ok _ => (true, appended)
    | .error _ => (false, appended)

/-- `MoodTracker.get_recent_entries`: keep the entries whose timestamp is at
least `now - timedelta(days=days)`, preserving order.  (`Nat` subtraction
truncates at the epoch, which only widens the window for pre-epoch cutoffs.) -/
def get_recent_entries (now : Nat) (days : Nat) (entries : List MoodEntry) :
    List MoodEntry :=
  entries.filter fun e => now - days * usPerDay ≤ e.timestamp

/-- Arithmetic mean (`sum(xs) / len(xs)`). -/
def mean (l : List ℚ) : ℚ := l.sum / l.length

/-- `MoodTracker._calculate_trend`. -/
def calculate_trend (values : List ℚ) : String :=
  if values.length < 2 then "insufficient_data"
  else
    let mid := values.length / 2
    let first_half_avg := mean (values.take mid)
    let second_half_avg := mean (values.drop mid)
    let diff := second_half_avg - first_half_avg
    if diff > 1/2 then "improving"
    else if diff < -(1/2) then "declining"
    else "stable"

/-- The statistics dictionary built by `get_mood_trends` on a non-empty
window.  Calendar dates are carried as day numbers (see `dateOf`). -/
structure TrendsStats where
  total_entries : Nat
  avg_mood : ℚ
  avg_stress : ℚ
  avg_energy : ℚ
  avg_sleep : ℚ
  mood_trend : String
  range_start : Nat
  range_end : Nat
  deriving DecidableEq

/-- `MoodTracker.get_mood_trends`: `none` models the `{'error': 'No entries
found'}` dictionary.  `range_start` is `recent_entries[-1].timestamp.date()`
and `range_end` is `recent_entries[0].timestamp.date()`, exactly as in the
source. -/
def get_mood_trends (now : Nat) (days : Nat) (entries : List MoodEntry) :
    Option TrendsStats :=
  match get_recent_entries now days entries with
  | [] => none
  | e :: rest =>
    let recent := e :: rest
    some { total_entries := recent.length
         , avg_mood := mean (recent.map (·.mood_score))
         , avg_stress := mean (recent.map (·.stress_level))
         , avg_energy := mean (recent.map (·.energy_level))
         , avg_sleep := mean (recent.map (·.sleep_hours))
         , mood_trend := calculate_trend (recent.map (·.mood_score))
         , range_start := dateOf (recent.getLastD e).timestamp
         , range_end := dateOf e.timestamp }

/-- Python's `str.lower`, modelled character-wise (`Char.toLower` lowercases
the letters the tags of this domain use). -/
def pyLower (s : String) : String := String.mk (s.data.map Char.toLower)

/-- `MoodTracker.search_entries_by_tag`: keep the entries one of whose
lower-cased tags equals the lower-cased query. -/
def search_entries_by_tag (tag : String) (entries : List MoodEntry) :
    List MoodEntry :=
  entries.filter fun e => (e.tags.map pyLower).contains (pyLower tag)

/-- One step of building `tag_counts`: `tag_counts[tag] =
tag_counts.get(tag, 0) + 1` on an insertion-ordered dictionary, modelled as an
association list (a fresh key is appended, an existing key's count is
bumped in place). -/
def bumpTag (acc : List (String × Nat)) (t : String) : List (String × Nat) :=
  if acc.any (fun p => p.1 = t) then
    acc.map fun p => if p.1 = t then (p.1, p.2 + 1) else p
  else acc ++ [(t, 1)]

/-- The `tag_counts` dictionary of `get_mood_patterns`, as an ordered
association list keyed in first-encounter order. -/
def tag_counts (tags : List String) : List (String × Nat) :=
  tags.foldl bumpTag []

/-- Stable descending insertion by count: the new pair goes after every pair
whose count is at least its own.  This is the behaviour of Python's stable
`sorted(…, key=lambda x: x[1], reverse=True)` when items are inserted in
their original order. -/
def insDesc (x : String × Nat) : List (String × Nat) → List (String × Nat)
  | [] => [x]
  | y :: ys => if x.2 ≤ y.2 then y :: insDesc x ys else x :: y :: ys

/-- Stable sort of the `(tag, count)` pairs by descending count. -/
def sortDesc (l : List (String × Nat)) : List (String × Nat) :=
  l.foldl (fun acc x => insDesc x acc) []

/-- All tags of all entries, flattened in store order (`all_tags`). -/
def allTags (entries : List MoodEntry) : List String :=
  (entries.map (·.tags)).flatten

/-- `common_tags`: frequency-count the flattened tags, sort descending by
count (stable), keep the first 10. -/
def common_tags (entries : List MoodEntry) : List (String × Nat) :=
  (sortDesc (tag_counts (allTags entries))).take 10

/-- The English weekday names used as dictionary keys by
`get_mood_patterns`. -/
def weekdayNames : List String :=
  ["Monday", "Tuesday", "Wednesday", "Thursday", "Friday", "Saturday",
   "Sunday"]

/-- The mood scores of the entries falling on weekday `i`
(`weekday_moods[i]`), in store order. -/
def weekday_moods (entries : List MoodEntry) (i : Nat) : List ℚ :=
  (entries.filter fun e => pyWeekday e.timestamp = i).map (·.mood_score)

/-- The result dictionary of `get_mood_patterns` on a non-empty store.  An
empty weekday bucket is reported as `none` (Python's `None`), never as a
number. -/
structure PatternsResult where
  weekday_averages : List (String × Option ℚ)
  common_tags : List (String × Nat)
  total_entries : Nat

/-- `MoodTracker.get_mood_patterns`: `none` models the `{'error': 'No entries
found'}` dictionary returned for an empty store. -/
def get_mood_patterns (entries : List MoodEntry) : Option PatternsResult :=
  match entries with
  | [] => none
  | _ :: _ =>
    some { weekday_averages :=
             (List.range 7).map fun i =>
               (weekdayNames.getD i "",
                if (weekday_moods entries i).isEmpty then none
                else some (mean (weekday_moods entries i)))
         , common_tags := common_tags entries
         , total_entries := entries.length }

/-- `MoodTracker.export_data`: the JSON array of `to_dict` of every entry
(`json.dumps` is modelled as the identity on the structure). -/
def export_data (entries : List MoodEntry) : Json :=
  .arr (entries.map MoodEntry.to_dict)

/-- Python iteration over a parsed JSON value, as used by the import loop:
an array yields its elements, a dict yields its keys (as strings), a string
yields its characters as one-character strings, and iterating any other
value raises (`none`). -/
def pyIter : Json → Option (List Json)
  | .arr xs => some xs
  | .obj kvs => some (kvs.map fun p => .str p.1)
  | .str s => some (s.data.map fun c => .str (String.mk [c]))
  | _ => none

/-- The comprehension `[MoodEntry.from_dict(d) for d in data]`: left-to-right
traversal in which one raising element aborts the whole list. -/
def importList (now : Nat) : List Json → Option (List MoodEntry)
  | [] => some []
  | d :: rest => do
    let e ← MoodEntry.from_dict now d
    let es ← importList now rest
    some (e :: es)

/-- `MoodTracker.import_data`.  The argument is the parse of the import text
(`none` = `json.loads` raised).  The comprehension builds the whole
`imported_entries` list before `self.entries.extend`, so one failing entry
(`from_dict = none`) leaves the store untouched and returns `false`;
otherwise every parsed entry is appended and the result is `true`. -/
def import_data (now : Nat) (entries : List MoodEntry) (txt : Option Json) :
    Bool × List MoodEntry :=
  match txt with
  | none => (false, entries)
  | some j =>
    match pyIter j with
    | none => (false, entries)
    | some items =>
      match importList now items with
      | none => (false, entries)
      | some imported => (true, entries ++ imported)

/-! ## The text form of an instant round-trips -/

theorem decDecode_append (acc : Nat) (l1 l2 : List Char) :
    decDecode acc (l1 ++ l2)
      = (decDecode acc l1).bind fun a => decDecode a l2 := by
  induction l1 generalizing acc with
  | nil => rfl
  | cons c cs ih =>
    simp only [List.cons_append, decDecode]
    cases digitVal? c with
    | none => rfl
    | some d => simpa using ih (acc * 10 + d)

theorem digitVal?_digitCh {d : Nat} (hd : d < 10) :
    digitVal? (digitCh d) = some d := by
  interval_cases d <;> decide

theorem decDecode_natDigits (fuel : Nat) :
    ∀ n acc, n ≤ fuel →
      decDecode acc (natDigits fuel n)
        = some (acc * 10 ^ (natDigits fuel n).length + n) := by
  induction fuel with
  | zero =>
    intro n acc h
    have hn : n = 0 := by omega
    subst hn
    simp [natDigits, decDecode]
  | succ fuel ih =>
    intro n acc h
    by_cases hn : n = 0
    · subst hn; simp [natDigits, decDecode]
    · rw [natDigits, if_neg hn, decDecode_append]
      have hdiv : n / 10 ≤ fuel := by
        have := Nat.div_lt_self (Nat.pos_of_ne_zero hn) (by norm_num : 1 < 10)
        omega
      rw [ih (n / 10) acc hdiv]
      have hmod : n % 10 < 10 := Nat.mod_lt _ (by norm_num)
      simp only [Option.some_bind, decDecode, digitVal?_digitCh hmod,
        List.length_append, List.length_cons, List.length_nil]
      congr 1
      have hdm : 10 * (n / 10) + n % 10 = n := Nat.div_add_mod n 10
      calc (acc * 10 ^ (natDigits fuel (n / 10)).length + n / 10) * 10 + n % 10
          = acc * (10 ^ (natDigits fuel (n / 10)).length * 10)
              + (10 * (n / 10) + n % 10) := by ring
        _ = acc * 10 ^ ((natDigits fuel (n / 10)).length + 1) + n := by
              rw [pow_succ, hdm]

theorem fromisoformat_mk (cs : List Char) (h : cs ≠ []) :
    fromisoformat (String.mk cs) = decDecode 0 cs := by
  unfold fromisoformat
  cases cs with
  | nil => exact absurd rfl h
  | cons c cs => rfl

/-- The modelled `isoformat` text of an instant parses back to the same
instant, the key fact behind the export/import round trip. -/
theorem fromisoformat_isoformat (t : Nat) :
    fromisoformat (isoformat t) = some t := by
  by_cases ht : t = 0
  · subst ht; decide
  · rw [isoformat, if_neg ht]
    have hne : natDigits t t ≠ [] := by
      obtain ⟨f, rfl⟩ : ∃ f, t = f + 1 := ⟨t - 1, by omega⟩
      rw [natDigits, if_neg ht]
      simp
    rw [fromisoformat_mk _ hne, decDecode_natDigits t t 0 le_rfl]
    simp

/-! ## `from_dict` inverts `to_dict` -/

theorem strList_map_str (l : List String) :
    strList (l.map Json.str) = some l := by
  induction l with
  | nil => rfl
  | cons a rest ih => simp [strList, asStr, ih]

/-- `MoodEntry.from_dict` applied to `MoodEntry.to_dict e` rebuilds `e`
field-for-field, timestamp included. -/
theorem from_dict_to_dict (now : Nat) (e : MoodEntry) :
    MoodEntry.from_dict now (MoodEntry.to_dict e) = some e := by
  simp only [MoodEntry.to_dict, MoodEntry.from_dict, jlookup, jgetD]
  simp +decide [asNum, asStr, asStrList, strList_map_str, fromisoformat_isoformat,
    MoodEntry.init]

theorem importList_to_dict (now : Nat) (entries : List MoodEntry) :
    importList now (entries.map MoodEntry.to_dict) = some entries := by
  induction entries with
  | nil => rfl
  | cons e rest ih => simp [importList, from_dict_to_dict, ih]

/-- C2: round-trip law.  For every collection of entries, exporting it and
importing the result into a fresh empty store succeeds and reproduces the
collection field-for-field — timestamps, notes, the three scores,
sleep hours and tags included (entries are compared by full structural
equality). -/
theorem export_import_round_trip (now : Nat) (entries : List MoodEntry) :
    import_data now [] (some (export_data entries)) = (true, entries) := by
  simp [import_data, export_data, pyIter, importList_to_dict]

/-- C3: import is atomic and additive.  Unparsable text, a non-iterable
top-level value, or any single malformed entry makes `import_data` return
`false` with the store exactly unchanged (no prefix is appended); when every
entry parses, all of them are appended after the existing entries and the
result is `true`. -/
theorem import_atomicity :
    (∀ now entries, import_data now entries none = (false, entries)) ∧
    (∀ now entries j, pyIter j = none →
      import_data now entries (some j) = (false, entries)) ∧
    (∀ now entries j items, pyIter j = some items →
      importList now items = none →
      import_data now entries (some j) = (false, entries)) ∧
    (∀ now entries j items imported, pyIter j = some items →
      importList now items = some imported →
      import_data now entries (some j) = (true, entries ++ imported)) := by
  refine ⟨fun _ _ => rfl, ?_, ?_, ?_⟩
  · intro now entries j h
    simp [import_data, h]
  · intro now entries j items h1 h2
    simp [import_data, h1, h2]
  · intro now entries j items imported h1 h2
    simp [import_data, h1, h2]

/-- A pre-existing entry used to exercise the import-failure path. -/
def wEntry : MoodEntry := MoodEntry.init 0 6 "w" 5 5 8 ["x"]

/-- Scenario D as a concrete witness for `import_atomicity`: one entry
missing `mood_score` makes the whole import fail with the store unchanged. -/
theorem import_atomicity_witness :
    import_data 0 [wEntry] (some (.arr [.obj [("notes", .str "x")]]))
      = (false, [wEntry]) :=
  import_atomicity.2.2.1 0 [wEntry] (.arr [.obj [("notes", .str "x")]])
    [.obj [("notes", .str "x")]] rfl (by decide)

/-- C10: an otherwise well-formed imported entry that lacks the `timestamp`
key is still accepted: the import returns `true` and the record is appended
with its timestamp set to the import-time clock (`now`) and the remaining
fields defaulted. -/
theorem import_missing_timestamp_accepted (now : Nat)
    (store : List MoodEntry) (q : ℚ) :
    import_data now store (some (.arr [.obj [("mood_score", .num q)]]))
      = (true, store ++ [MoodEntry.init now q "" 5 5 8 []]) := by
  simp only [import_data, pyIter, importList, MoodEntry.from_dict, jlookup,
    jgetD]
  simp +decide [asNum, asStr, asStrList, strList, MoodEntry.init]

/-! ## Trend classification -/

/-- C1: trend classification.  Fewer than 2 samples classify as
`insufficient_data`; otherwise the series is split at `n / 2` (the first half
gets `n / 2` elements, the second the remaining `n - n / 2`, so the extra
element of an odd-length series is in the second half), and with
`delta = mean(second half) - mean(first half)` the result is `improving` for
`delta > 1/2`, `declining` for `delta < -1/2`, and `stable` otherwise —
in particular `delta = 1/2` and `delta = -1/2` are `stable`. -/
theorem trend_classification (values : List ℚ) :
    (values.length < 2 → calculate_trend values = "insufficient_data") ∧
    (2 ≤ values.length →
      ((values.take (values.length / 2)).length = values.length / 2 ∧
       (values.drop (values.length / 2)).length
         = values.length - values.length / 2) ∧
      (1/2 < mean (values.drop (values.length / 2))
              - mean (values.take (values.length / 2)) →
        calculate_trend values = "improving") ∧
      (mean (values.drop (values.length / 2))
          - mean (values.take (values.length / 2)) < -(1/2) →
        calculate_trend values = "declining") ∧
      (-(1/2) ≤ mean (values.drop (values.length / 2))
                  - mean (values.take (values.length / 2)) →
       mean (values.drop (values.length / 2))
          - mean (values.take (values.length / 2)) ≤ 1/2 →
        calculate_trend values = "stable")) := by
  constructor
  · intro h
    simp [calculate_trend, h]
  · intro h
    have h2 : ¬ values.length < 2 := by omega
    refine ⟨⟨?_, List.length_drop _ _⟩, ?_, ?_, ?_⟩
    · rw [List.length_take]; omega
    · intro hgt
      simp only [calculate_trend, if_neg h2]
      rw [if_pos hgt]
    · intro hlt
      simp only [calculate_trend, if_neg h2]
      rw [if_neg (by linarith), if_pos hlt]
    · intro hge hle
      simp only [calculate_trend, if_neg h2]
      rw [if_neg (by linarith), if_neg (by linarith)]

/-- Scenario A as a concrete witness for `trend_classification`: the series
`[3,3,4,8,9,9]` splits into `[3,3,4]` and `[8,9,9]`, `delta = 16/3 > 1/2`,
so the trend is `improving`. -/
theorem trend_classification_witness :
    calculate_trend [3, 3, 4, 8, 9, 9] = "improving" :=
  ((trend_classification [3, 3, 4, 8, 9, 9]).2 (by norm_num)).2.1
    (by norm_num [mean])

/-! ## Date range of `get_mood_trends` (C4) -/

/-- An entry created at the epoch (calendar day 0). -/
def dayZeroEntry : MoodEntry := MoodEntry.init 0 5 "" 5 5 8 []

/-- An entry created one day later (calendar day 1). -/
def dayOneEntry : MoodEntry := MoodEntry.init usPerDay 5 "" 5 5 8 []

/-- C4 failing input: on the chronologically appended store
`[dayZeroEntry, dayOneEntry]` (earliest date 0, latest date 1) the summary
reports `start` = calendar date of the *last* list element (day 1, the
latest) and `end` = calendar date of the *first* (day 0, the earliest): the
code uses the list positions `[-1]`/`[0]` instead of computing the
minimum/maximum timestamp, so the reported range is reversed on
oldest-first data. -/
theorem date_range_from_list_order :
    (get_mood_trends usPerDay 30 [dayZeroEntry, dayOneEntry]).map
        (fun r => (r.range_start, r.range_end)) = some (1, 0) ∧
    dateOf dayZeroEntry.timestamp = 0 ∧
    dateOf dayOneEntry.timestamp = 1 := by
  refine ⟨?_, rfl, ?_⟩
  · rfl
  · simp [dayOneEntry, MoodEntry.init, dateOf, usPerDay]

/-! ## Validation of caller-supplied scores (C5) -/

/-- An entry whose `mood_score` is 15, outside the documented 1–10 domain. -/
def outOfRangeEntry : MoodEntry := MoodEntry.init 0 15 "" 5 5 8 []

/-- C5 failing input: neither `MoodEntry.__init__` nor
`MoodTracker.add_entry` validates the scores: an entry with
`mood_score = 15` is stored unchanged and `add_entry` returns `true`, so no
validation error ever reaches the caller and the value is neither clamped
nor rejected. -/
theorem out_of_range_score_accepted :
    add_entry none [] outOfRangeEntry = (true, [outOfRangeEntry]) ∧
    outOfRangeEntry.mood_score = 15 ∧
    ¬ (1 ≤ outOfRangeEntry.mood_score ∧ outOfRangeEntry.mood_score ≤ 10) := by
  refine ⟨rfl, rfl, ?_⟩
  norm_num [outOfRangeEntry, MoodEntry.init]

/-! ## `add_entry` contract (C6) -/

/-- C6: `add_entry` always appends the record at the end of the in-memory
sequence — also when the configured gateway raises, i.e. the local append is
never rolled back — and returns `false` exactly when a configured gateway's
append raised, `true` otherwise.  The model of `add_entry` is a total
function, which is the `never raises out of the memory store` part of the
contract. -/
theorem add_entry_contract (gw : Option Gateway) (entries : List MoodEntry)
    (e : MoodEntry) :
    (add_entry gw entries e).2 = entries ++ [e] ∧
    ((add_entry gw entries e).1 = false ↔
      ∃ g err, gw = some g ∧ g e = .error err) := by
  cases gw with
  | none =>
    refine ⟨rfl, ?_⟩
    simp [add_entry]
  | some g =>
    cases hge : g e with
    | ok b =>
      refine ⟨by simp [add_entry, hge], ?_⟩
      have h1 : (add_entry (some g) entries e).1 = true := by
        simp [add_entry, hge]
      rw [h1]
      constructor
      · intro hfalse; cases hfalse
      · rintro ⟨g', err, hg, herr⟩
        cases hg
        rw [hge] at herr
        cases herr
    | error err =>
      refine ⟨by simp [add_entry, hge], ?_⟩
      have h1 : (add_entry (some g) entries e).1 = false := by
        simp [add_entry, hge]
      rw [h1]
      exact ⟨fun _ => ⟨g, err, rfl, hge⟩, fun _ => rfl⟩

/-! ## Case-insensitive tag search (C8) -/

/-- C8: `search_entries_by_tag` returns exactly the entries one of whose
tags equals the query up to lower-casing, as a sublist of the store — i.e.
in the original order. -/
theorem by_tag_case_insensitive (tag : String) (entries : List MoodEntry) :
    (search_entries_by_tag tag entries).Sublist entries ∧
    ∀ e, e ∈ search_entries_by_tag tag entries ↔
      e ∈ entries ∧ ∃ t ∈ e.tags, pyLower t = pyLower tag := by
  refine ⟨List.filter_sublist _, fun e => ?_⟩
  simp [search_entries_by_tag, List.mem_filter, List.elem_iff]

/-! ## Empty-dataset handling (C9) -/

/-- C9: an empty analysis window makes `get_mood_trends` return the explicit
no-data result, an empty store makes `get_mood_patterns` return the explicit
no-data result, and a weekday bucket with no records is reported as the
explicit marker `none`, never as a number (in particular never `0`). -/
theorem empty_dataset_explicit :
    (∀ now days entries, get_recent_entries now days entries = [] →
      get_mood_trends now days entries = none) ∧
    get_mood_patterns [] = none ∧
    (∀ entries i, entries ≠ [] → i < 7 → weekday_moods entries i = [] →
      (get_mood_patterns entries).map
          (fun pr => pr.weekday_averages[i]?)
        = some (some (weekdayNames.getD i "", none))) := by
  refine ⟨?_, rfl, ?_⟩
  · intro now days entries h
    simp [get_mood_trends, h]
  · intro entries i hne hi hempty
    match entries, hne with
    | e :: rest, _ =>
      simp [get_mood_patterns, List.getElem?_map, List.getElem?_range hi,
        hempty]

/-- An entry created at the epoch, which was a Thursday. -/
def thursdayEntry : MoodEntry := MoodEntry.init 0 7 "" 5 5 8 []

/-- Concrete witness for `empty_dataset_explicit`: a store with a single
Thursday entry reports the Monday bucket as the explicit marker `none`. -/
theorem empty_dataset_explicit_witness :
    (get_mood_patterns [thursdayEntry]).map
        (fun pr => pr.weekday_averages[0]?)
      = some (some ("Monday", none)) :=
  empty_dataset_explicit.2.2 [thursdayEntry] 0 (by simp) (by norm_num) rfl

/-- Concrete witness for `add_entry_contract`: a raising gateway makes `add`
return `false` while the entry is still appended. -/
theorem add_entry_contract_witness :
    (add_entry (some fun _ => Except.error "down") [] thursdayEntry).1
        = false ∧
    (add_entry (some fun _ => Except.error "down") [] thursdayEntry).2
        = [thursdayEntry] := by
  have h := add_entry_contract (some fun _ => Except.error "down") []
    thursdayEntry
  exact ⟨h.2.mpr ⟨_, "down", rfl, rfl⟩, h.1⟩

/-- An entry tagged `"Work"`, for the case-insensitive search witness. -/
def taggedWorkEntry : MoodEntry := MoodEntry.init 0 5 "" 5 5 8 ["Work"]

/-- Concrete witness for `by_tag_case_insensitive`: the record tagged
`"Work"` is returned by a search for `"WORK"`. -/
theorem by_tag_case_insensitive_witness :
    taggedWorkEntry ∈ search_entries_by_tag "WORK" [taggedWorkEntry] :=
  ((by_tag_case_insensitive "WORK" [taggedWorkEntry]).2 taggedWorkEntry).mpr
    ⟨by simp, "Work", by simp [taggedWorkEntry, MoodEntry.init], by decide⟩

/-! ## Tag frequency ranking (C7) -/

theorem mem_insDesc {x y : String × Nat} {l : List (String × Nat)} :
    y ∈ insDesc x l ↔ y = x ∨ y ∈ l := by
  induction l with
  | nil => simp [insDesc]
  | cons z zs ih =>
    by_cases h : x.2 ≤ z.2
    · rw [insDesc, if_pos h]
      simp [ih]
      tauto
    · rw [insDesc, if_neg h]
      simp

/-- Inserting below all pairs of at least its count preserves sortedness:
the target order is `strictly greater count, or equal count and the
underlying tie-break relation S`. -/
theorem pairwise_insDesc {S : String × Nat → String × Nat → Prop}
    {x : String × Nat} {l : List (String × Nat)}
    (hl : l.Pairwise fun p q => q.2 < p.2 ∨ (p.2 = q.2 ∧ S p q))
    (hx : ∀ y ∈ l, y.2 = x.2 → S y x) :
    (insDesc x l).Pairwise fun p q => q.2 < p.2 ∨ (p.2 = q.2 ∧ S p q) := by
  induction l with
  | nil => simp [insDesc]
  | cons y ys ih =>
    rw [List.pairwise_cons] at hl
    obtain ⟨hy, hys⟩ := hl
    by_cases hcmp : x.2 ≤ y.2
    · rw [insDesc, if_pos hcmp]
      refine List.pairwise_cons.2 ⟨?_, ih hys fun z hz => hx z (by simp [hz])⟩
      intro z hz
      rcases mem_insDesc.1 hz with rfl | hzys
      · rcases lt_or_eq_of_le hcmp with hlt | heq
        · exact Or.inl hlt
        · exact Or.inr ⟨heq.symm, hx y (by simp) heq.symm⟩
      · exact hy z hzys
    · rw [insDesc, if_neg hcmp]
      push_neg at hcmp
      refine List.pairwise_cons.2 ⟨?_, List.pairwise_cons.2 ⟨hy, hys⟩⟩
      intro z hz
      rcases List.mem_cons.1 hz with rfl | hzys
      · exact Or.inl hcmp
      · rcases hy z hzys with h1 | ⟨h2, _⟩
        · exact Or.inl (h1.trans hcmp)
        · exact Or.inl (h2 ▸ hcmp)

theorem mem_foldl_insDesc {l acc : List (String × Nat)}
    {y : String × Nat} :
    y ∈ l.foldl (fun a x => insDesc x a) acc ↔ y ∈ acc ∨ y ∈ l := by
  induction l generalizing acc with
  | nil => simp
  | cons x xs ih =>
    rw [List.foldl_cons, ih]
    simp [mem_insDesc]
    tauto

/-- The stable descending insertion sort yields a list that is pairwise
sorted by count, ties resolved by the order `S` in which the input pairs
were listed. -/
theorem pairwise_sortDesc {S : String × Nat → String × Nat → Prop}
    {l : List (String × Nat)} (hS : l.Pairwise S) :
    (sortDesc l).Pairwise fun p q => q.2 < p.2 ∨ (p.2 = q.2 ∧ S p q) := by
  suffices h : ∀ (rem acc : List (String × Nat)), rem.Pairwise S →
      (acc.Pairwise fun p q => q.2 < p.2 ∨ (p.2 = q.2 ∧ S p q)) →
      (∀ y ∈ acc, ∀ x ∈ rem, S y x) →
      ((rem.foldl (fun a x => insDesc x a) acc).Pairwise
        fun p q => q.2 < p.2 ∨ (p.2 = q.2 ∧ S p q)) by
    exact h l [] hS (by simp) (by simp)
  intro rem
  induction rem with
  | nil =>
    intro acc _ hacc _
    simpa using hacc
  | cons x xs ih =>
    intro acc hrem hacc hcross
    rw [List.foldl_cons]
    rw [List.pairwise_cons] at hrem
    refine ih _ hrem.2
      (pairwise_insDesc hacc fun y hy _ => hcross y hy x (by simp)) ?_
    intro y hy z hz
    rcases mem_insDesc.1 hy with rfl | hyacc
    · exact hrem.1 z hz
    · exact hcross y hyacc z (by simp [hz])

theorem mem_sortDesc {l : List (String × Nat)} {y : String × Nat} :
    y ∈ sortDesc l ↔ y ∈ l := by
  rw [sortDesc, mem_foldl_insDesc]
  simp

theorem length_insDesc (x : String × Nat) (l : List (String × Nat)) :
    (insDesc x l).length = l.length + 1 := by
  induction l with
  | nil => rfl
  | cons y ys ih =>
    by_cases h : x.2 ≤ y.2
    · rw [insDesc, if_pos h]
      simp [ih]
    · rw [insDesc, if_neg h]
      simp

theorem length_sortDesc (l : List (String × Nat)) :
    (sortDesc l).length = l.length := by
  suffices h : ∀ (rem acc : List (String × Nat)),
      (rem.foldl (fun a x => insDesc x a) acc).length
        = acc.length + rem.length by
    simpa using h l []
  intro rem
  induction rem with
  | nil => simp
  | cons x xs ih =>
    intro acc
    rw [List.foldl_cons, ih, length_insDesc]
    simp
    omega

theorem tag_counts_append (pre : List String) (t : String) :
    tag_counts (pre ++ [t]) = bumpTag (tag_counts pre) t := by
  simp [tag_counts, List.foldl_append]

/-- The `tag_counts` dictionary: every pair carries the literal occurrence
count of its key in the tag list (no case folding, `String` equality), every
tag has a pair, and the pairs are listed in strictly increasing order of the
key's first occurrence. -/
theorem tag_counts_spec (tags : List String) :
    (∀ p ∈ tag_counts tags, p.1 ∈ tags ∧ p.2 = tags.count p.1) ∧
    ((tag_counts tags).Pairwise fun p q =>
      tags.indexOf p.1 < tags.indexOf q.1) ∧
    (∀ t ∈ tags, ∃ p ∈ tag_counts tags, p.1 = t) := by
  induction tags using List.reverseRecOn with
  | nil => simp [tag_counts]
  | append_singleton pre t ih =>
    obtain ⟨ih1, ih2, ih3⟩ := ih
    rw [tag_counts_append]
    by_cases hk : (tag_counts pre).any (fun p => p.1 = t) = true
    · -- the key `t` is already present: bump its count in place
      rw [bumpTag, if_pos hk]
      simp only [List.any_eq_true, decide_eq_true_eq] at hk
      obtain ⟨pt, hptmem, hptt⟩ := hk
      have htpre : t ∈ pre := hptt ▸ (ih1 pt hptmem).1
      have hfst : ∀ p : String × Nat,
          (if p.1 = t then (p.1, p.2 + 1) else p).1 = p.1 := by
        intro p
        by_cases h : p.1 = t <;> simp [h]
      refine ⟨?_, ?_, ?_⟩
      · intro p' hp'
        obtain ⟨p, hp, rfl⟩ := List.mem_map.1 hp'
        obtain ⟨hmem, hcount⟩ := ih1 p hp
        by_cases hpt : p.1 = t
        · rw [if_pos hpt]
          refine ⟨List.mem_append_left _ hmem, ?_⟩
          rw [List.count_append, hpt, hcount, hpt]
          simp
        · rw [if_neg hpt]
          refine ⟨List.mem_append_left _ hmem, ?_⟩
          rw [List.count_append, hcount]
          have : List.count p.1 [t] = 0 := by
            rw [List.count_eq_zero]
            simp [hpt]
          omega
      · rw [List.pairwise_map]
        refine ih2.imp_of_mem ?_
        intro p q hp hq hlt
        rw [hfst p, hfst q,
          List.indexOf_append_of_mem (ih1 p hp).1,
          List.indexOf_append_of_mem (ih1 q hq).1]
        exact hlt
      · intro s hs
        rcases List.mem_append.1 hs with hs | hs
        · obtain ⟨p, hp, hps⟩ := ih3 s hs
          exact ⟨(if p.1 = t then (p.1, p.2 + 1) else p),
            List.mem_map_of_mem _ hp, (hfst p).trans hps⟩
        · have hst : s = t := by simpa using hs
          exact ⟨(if pt.1 = t then (pt.1, pt.2 + 1) else pt),
            List.mem_map_of_mem _ hptmem, (hfst pt).trans (hptt.trans hst.symm)⟩
    · -- fresh key: append `(t, 1)` at the end
      rw [bumpTag, if_neg hk]
      simp only [List.any_eq_true, decide_eq_true_eq, not_exists] at hk
      push_neg at hk
      have htpre : t ∉ pre := by
        intro hmem
        obtain ⟨p, hp, hps⟩ := ih3 t hmem
        exact hk p hp hps
      refine ⟨?_, ?_, ?_⟩
      · intro p' hp'
        rcases List.mem_append.1 hp' with hp' | hp'
        · obtain ⟨hmem, hcount⟩ := ih1 p' hp'
          refine ⟨List.mem_append_left _ hmem, ?_⟩
          rw [List.count_append, hcount]
          have : List.count p'.1 [t] = 0 := by
            rw [List.count_eq_zero]
            simp
            intro h
            exact hk p' hp' h
          omega
        · have : p' = (t, 1) := by simpa using hp'
          subst this
          refine ⟨List.mem_append_right _ (by simp), ?_⟩
          rw [List.count_append, List.count_eq_zero.2 htpre]
          simp
      · rw [List.pairwise_append]
        refine ⟨ih2.imp_of_mem ?_, by simp, ?_⟩
        · intro p q hp hq hlt
          rw [List.indexOf_append_of_mem (ih1 p hp).1,
            List.indexOf_append_of_mem (ih1 q hq).1]
          exact hlt
        · intro p hp q hq
          have hq' : q = (t, 1) := by simpa using hq
          subst hq'
          rw [List.indexOf_append_of_mem (ih1 p hp).1,
            List.indexOf_append_of_not_mem htpre]
          have := List.indexOf_lt_length.2 (ih1 p hp).1
          simp
          omega
      · intro s hs
        rcases List.mem_append.1 hs with hs | hs
        · obtain ⟨p, hp, hps⟩ := ih3 s hs
          exact ⟨p, List.mem_append_left _ hp, hps⟩
        · have hst : s = t := by simpa using hs
          exact ⟨(t, 1), List.mem_append_right _ (by simp), hst.symm⟩

/-- C7: the tag ranking `common_tags` returns at most 10 pairs; each pair's
count is the number of literal occurrences of its tag across all records
(`String` equality, so `"Work"` and `"work"` are distinct keys); the pairs
are ordered by strictly descending count, with equal counts ordered by the
first occurrence of the tag in the flattened record order; and the selection
is the top of the ranking: every tag of the store is represented, except
that when the result is already full (10 pairs) a tag may be omitted only if
every returned pair's count is at least the omitted tag's count. -/
theorem tag_ranking (entries : List MoodEntry) :
    (common_tags entries).length ≤ 10 ∧
    (∀ p ∈ common_tags entries,
      p.1 ∈ allTags entries ∧ p.2 = (allTags entries).count p.1) ∧
    ((common_tags entries).Pairwise fun p q =>
      q.2 < p.2 ∨ (p.2 = q.2 ∧
        (allTags entries).indexOf p.1 < (allTags entries).indexOf q.1)) ∧
    (∀ t ∈ allTags entries,
      (∃ p ∈ common_tags entries, p.1 = t) ∨
      ((common_tags entries).length = 10 ∧
       ∀ p ∈ common_tags entries, (allTags entries).count t ≤ p.2)) := by
  obtain ⟨h1, h2, h3⟩ := tag_counts_spec (allTags entries)
  refine ⟨List.length_take_le _ _, ?_, ?_, ?_⟩
  · intro p hp
    have hp' : p ∈ sortDesc (tag_counts (allTags entries)) :=
      (List.take_sublist _ _).subset hp
    exact h1 p (mem_sortDesc.1 hp')
  · exact (pairwise_sortDesc h2).sublist (List.take_sublist _ _)
  · intro t ht
    by_cases hin : ∃ p ∈ common_tags entries, p.1 = t
    · exact Or.inl hin
    · push_neg at hin
      obtain ⟨pt, hptmem, hptt⟩ := h3 t ht
      have hptsort : pt ∈ sortDesc (tag_counts (allTags entries)) :=
        mem_sortDesc.2 hptmem
      have hptdrop :
          pt ∈ (sortDesc (tag_counts (allTags entries))).drop 10 := by
        have hmem : pt ∈ (sortDesc (tag_counts (allTags entries))).take 10
            ++ (sortDesc (tag_counts (allTags entries))).drop 10 := by
          rw [List.take_append_drop]
          exact hptsort
        rcases List.mem_append.1 hmem with h | h
        · exact absurd hptt (hin pt h)
        · exact h
      have hlen11 :
          11 ≤ (sortDesc (tag_counts (allTags entries))).length := by
        have hne : (sortDesc (tag_counts (allTags entries))).drop 10 ≠ [] :=
          fun h => by simp [h] at hptdrop
        have hpos :
            0 < ((sortDesc (tag_counts (allTags entries))).drop 10).length :=
          List.length_pos.2 hne
        rw [List.length_drop] at hpos
        omega
      refine Or.inr ⟨?_, ?_⟩
      · simp only [common_tags, List.length_take]
        omega
      · intro p hp
        have hpw := pairwise_sortDesc h2
        rw [← List.take_append_drop 10
          (sortDesc (tag_counts (allTags entries)))] at hpw
        obtain ⟨-, -, hcross⟩ := List.pairwise_append.1 hpw
        have hR := hcross p hp pt hptdrop
        have hcount : pt.2 = (allTags entries).count pt.1 := (h1 pt hptmem).2
        rw [← hptt, ← hcount]
        rcases hR with hlt | ⟨heq, -⟩
        · exact le_of_lt hlt
        · exact heq.symm.le

/-- Scenario C record tagged `"work"`. -/
def lowerWorkEntry : MoodEntry := MoodEntry.init 0 5 "" 5 5 8 ["work"]

/-- Scenario C record tagged `"Work"`. -/
def upperWorkEntry : MoodEntry := MoodEntry.init 0 5 "" 5 5 8 ["Work"]

/-- Scenario C record tagged `"rest"`. -/
def restEntry : MoodEntry := MoodEntry.init 0 5 "" 5 5 8 ["rest"]

/-- Scenario C as a concrete witness for `tag_ranking`: across records
tagged `"work"`, `"Work"`, `"rest"` the ranking lists all three as distinct
keys with count 1 in first-seen order, and the theorem applied to the pair
`("Work", 1)` of the ranking gives its literal count. -/
theorem tag_ranking_witness :
    common_tags [lowerWorkEntry, upperWorkEntry, restEntry]
        = [("work", 1), ("Work", 1), ("rest", 1)] ∧
    (("Work", 1).1 ∈ allTags [lowerWorkEntry, upperWorkEntry, restEntry] ∧
     ("Work", 1).2
       = (allTags [lowerWorkEntry, upperWorkEntry, restEntry]).count "Work") ∧
    ((∃ p ∈ common_tags [lowerWorkEntry, upperWorkEntry, restEntry],
        p.1 = "rest") ∨
     ((common_tags [lowerWorkEntry, upperWorkEntry, restEntry]).length
         = 10 ∧
      ∀ p ∈ common_tags [lowerWorkEntry, upperWorkEntry, restEntry],
        (allTags [lowerWorkEntry, upperWorkEntry, restEntry]).count "rest"
          ≤ p.2)) :=
  ⟨by decide,
   (tag_ranking [lowerWorkEntry, upperWorkEntry, restEntry]).2.1
     ("Work", 1) (by decide),
   (tag_ranking [lowerWorkEntry, upperWorkEntry, restEntry]).2.2.2
     "rest" (by decide)⟩

end MoodTrackerPy
